import Mathlib

/-!
Verification of the core of the Medical Spelling Checker
(`streamlit_app.py`): Levenshtein distance, candidate generation and
ranking, dictionary membership, tokenization inside `check_spelling`,
and the sidebar dictionary search.

Python strings are modelled as `List Char`; `str.lower` as a map of
`Char.toLower` (the ASCII fragment exercised by the program);
`pandas.DataFrame` dictionaries as ordered `List Entry`.
-/

/-- A dictionary row: a word with its corpus frequency
(one `(word, frequency)` pair of the DataFrame built in
`load_sample_dictionary`, lines 17-28). Frequencies are Python ints,
so they are modelled as `Int`. -/
structure Entry where
  word : List Char
  frequency : Int
deriving DecidableEq, Repr

/-- A correction candidate as built by `generate_candidates`
(lines 61-65): the dictionary word, its edit distance to the queried
word, and the frequency looked up for it. -/
structure Candidate where
  word : List Char
  distance : Nat
  frequency : Int
deriving DecidableEq, Repr

/-- One error record appended by `check_spelling` (lines 89-93):
the token's 0-based position in the token stream, the token itself,
and its ranked suggestions. -/
structure ReportEntry where
  pos : Nat
  word : List Char
  suggestions : List Candidate
deriving DecidableEq, Repr

/-- `str.lower` on the ASCII fragment: lowercase every character. -/
def lowerStr (s : List Char) : List Char := s.map Char.toLower

/-- A character the regex class `\w` keeps (ASCII fragment):
alphanumeric or underscore. `re.sub(r'[^\w\s]', ' ', text)` on line 81
replaces exactly the characters that are neither `\w` nor whitespace. -/
def isWordChar (c : Char) : Bool := c.isAlphanum || c == '_'

/-- Line 81: `re.sub(r'[^\w\s]', ' ', text)` — every character that is
neither a word character nor whitespace becomes a single space. -/
def cleanText (s : List Char) : List Char :=
  s.map (fun c => if isWordChar c || c.isWhitespace then c else ' ')

/-- Helper for `splitWs`: walk the text accumulating the current token
(reversed); whitespace flushes the accumulator. -/
def splitWsAux : List Char → List Char → List (List Char)
  | [], acc => if acc = [] then [] else [acc.reverse]
  | c :: rest, acc =>
      if c.isWhitespace then
        if acc = [] then splitWsAux rest []
        else acc.reverse :: splitWsAux rest []
      else splitWsAux rest (c :: acc)

/-- Python `str.split()` with no argument: split on runs of whitespace,
never producing empty tokens (line 82). -/
def splitWs (s : List Char) : List (List Char) := splitWsAux s []

/-- Lines 81-82 of `check_spelling`: strip punctuation to spaces,
lowercase, split on whitespace. -/
def tokenizeText (text : List Char) : List (List Char) :=
  splitWs (lowerStr (cleanText text))

/-! ## Levenshtein distance

`levenshtein_distance` (lines 31-50) fills a
`(len1+1) × (len2+1)` matrix row by row and returns the bottom-right
cell. Each row is computed from the previous one, so the embedding
keeps exactly the rows the loop can still read: `levCells` is the inner
loop over `j` (lines 42-48) producing the cells `matrix[i][1..len2]`,
and `levLoop` is the outer loop over `i` (lines 41-48), starting from
row 0 = `[0, 1, ..., len2]` (lines 36-39). -/

/-- Inner loop of the DP (lines 42-48): given the previous row's cells
from column `j+1` on (`prevTail`), the current row's cell at column `j`
(`left`), and the previous row's cell at column `j` (`diag`), produce
the current row's cells from column `j+1` on. Each cell is
`min (deletion) (min (insertion) (substitution))` exactly as on
lines 44-48. -/
def levCells (c1 : Char) : List Char → List Nat → Nat → Nat → List Nat
  | [], _, _, _ => []
  | _ :: _, [], _, _ => []
  | c2 :: w2, above :: prest, left, diag =>
      let cell := min (above + 1) (min (left + 1) (diag + (if c1 = c2 then 0 else 1)))
      cell :: levCells c1 w2 prest cell above

/-- Outer loop of the DP (lines 41-48): fold over the characters of
`word1`, turning row `i` into row `i+1`; a row starts with its index
(line 37: `matrix[i][0] = i`). -/
def levLoop (w2 : List Char) : List Char → List Nat → Nat → List Nat
  | [], prev, _ => prev
  | c1 :: w1r, prev, i =>
      levLoop w2 w1r ((i + 1) :: levCells c1 w2 prev.tail (i + 1) (prev.headD 0)) (i + 1)

/-- `levenshtein_distance(word1, word2)` (lines 31-50): run the DP from
row 0 `= [0..len2]` (lines 38-39) and read `matrix[len1][len2]`
(line 50). -/
def levenshtein_distance (word1 word2 : List Char) : Nat :=
  (levLoop word2 word1 (List.range (word2.length + 1)) 0).getLastD 0

/-- Reference recursive formulation of the same recurrence, consuming
both strings from the front; the DP is proved equal to `levRec` on the
reversed inputs (a matrix cell `(i, j)` is the distance between prefix
reversals). The three branches mirror lines 44-48: deletion,
insertion, substitution/match. -/
def levRec : List Char → List Char → Nat
  | [], ys => ys.length
  | x :: xs, [] => (x :: xs).length
  | x :: xs, y :: ys =>
      min (levRec xs (y :: ys) + 1)
        (min (levRec (x :: xs) ys + 1)
          (levRec xs ys + (if x = y then 0 else 1)))
termination_by a b => (a.length, b.length)
decreasing_by
  all_goals simp_wf
  · exact Prod.Lex.left _ _ (by omega)
  · exact Prod.Lex.right _ (by omega)
  · exact Prod.Lex.left _ _ (by omega)

/-- The matrix cell `(i, j)` of the source DP, expressed through the
reference recursion: distance between the reversed `i`-prefix of `w1`
and the reversed `j`-prefix of `w2`. -/
def cellD (w1 w2 : List Char) (i j : Nat) : Nat :=
  levRec ((w1.take i).reverse) ((w2.take j).reverse)

theorem levRec_nil_left (ys : List Char) : levRec [] ys = ys.length := by
  simp [levRec]

theorem levRec_nil_right (xs : List Char) : levRec xs [] = xs.length := by
  cases xs <;> simp [levRec]

theorem levRec_cons_cons (x y : Char) (xs ys : List Char) :
    levRec (x :: xs) (y :: ys) =
      min (levRec xs (y :: ys) + 1)
        (min (levRec (x :: xs) ys + 1)
          (levRec xs ys + (if x = y then 0 else 1))) := by
  simp [levRec]

theorem cellD_zero_left (w1 w2 : List Char) (j : Nat) (hj : j ≤ w2.length) :
    cellD w1 w2 0 j = j := by
  simp [cellD, levRec_nil_left, hj]

theorem cellD_zero_right (w1 w2 : List Char) (i : Nat) (hi : i ≤ w1.length) :
    cellD w1 w2 i 0 = i := by
  simp [cellD, levRec_nil_right, hi]

theorem take_succ_reverse {w : List Char} {i : Nat} {c : Char}
    (hc : w[i]? = some c) :
    (w.take (i + 1)).reverse = c :: (w.take i).reverse := by
  rw [List.take_succ, hc]
  simp

theorem cellD_succ_succ {w1 w2 : List Char} {i j : Nat} {c1 c2 : Char}
    (hc1 : w1[i]? = some c1) (hc2 : w2[j]? = some c2) :
    cellD w1 w2 (i + 1) (j + 1) =
      min (cellD w1 w2 i (j + 1) + 1)
        (min (cellD w1 w2 (i + 1) j + 1)
          (cellD w1 w2 i j + (if c1 = c2 then 0 else 1))) := by
  unfold cellD
  rw [take_succ_reverse hc1, take_succ_reverse hc2, levRec_cons_cons,
    ← take_succ_reverse hc1, ← take_succ_reverse hc2]

theorem levCells_spec (w1 w2 : List Char) (i : Nat) (c1 : Char)
    (hc1 : w1[i]? = some c1) :
    ∀ n j, j + n = w2.length →
    levCells c1 (w2.drop j) ((List.range' (j + 1) n).map (cellD w1 w2 i))
        (cellD w1 w2 (i + 1) j) (cellD w1 w2 i j)
      = (List.range' (j + 1) n).map (cellD w1 w2 (i + 1)) := by
  intro n
  induction n with
  | zero =>
      intro j hj
      have : w2.drop j = [] := by
        apply List.drop_eq_nil_of_le; omega
      simp [this, levCells]
  | succ n ih =>
      intro j hj
      have hjlt : j < w2.length := by omega
      have hd : w2.drop j = w2[j] :: w2.drop (j + 1) := List.drop_eq_getElem_cons hjlt
      have hc2 : w2[j]? = some w2[j] := List.getElem?_eq_getElem hjlt
      rw [hd, List.range'_succ, List.map_cons, List.map_cons, levCells]
      have hcell :
          min (cellD w1 w2 i (j + 1) + 1)
            (min (cellD w1 w2 (i + 1) j + 1)
              (cellD w1 w2 i j + (if c1 = w2[j] then 0 else 1)))
          = cellD w1 w2 (i + 1) (j + 1) := (cellD_succ_succ hc1 hc2).symm
      rw [hcell]
      have := ih (j + 1) (by omega)
      rw [this]

theorem levLoop_spec (w1 w2 : List Char) :
    ∀ (w1r : List Char) (i : Nat), w1.drop i = w1r → i + w1r.length = w1.length →
    levLoop w2 w1r ((List.range (w2.length + 1)).map (cellD w1 w2 i)) i
      = (List.range (w2.length + 1)).map (cellD w1 w2 w1.length) := by
  intro w1r
  induction w1r with
  | nil =>
      intro i _ hlen
      have : i = w1.length := by simpa using hlen
      rw [this, levLoop]
  | cons c1 rest ih =>
      intro i hdrop hlen
      have hlt : i < w1.length := by
        have := hlen; simp at this; omega
      have hd : w1.drop i = w1[i] :: w1.drop (i + 1) := List.drop_eq_getElem_cons hlt
      rw [hd] at hdrop
      have hc1 : w1[i]? = some c1 := by
        rw [List.getElem?_eq_getElem hlt]
        exact congrArg some (List.cons.injEq _ _ _ _ ▸ hdrop).1
  -- unfold one step of the loop and identify the new row
      rw [levLoop]
      have hrow : (List.range (w2.length + 1)).map (cellD w1 w2 i)
          = cellD w1 w2 i 0 :: (List.range' 1 w2.length).map (cellD w1 w2 i) := by
        rw [List.range_eq_range', List.range'_succ, List.map_cons]
      have htail : ((List.range (w2.length + 1)).map (cellD w1 w2 i)).tail
          = (List.range' 1 w2.length).map (cellD w1 w2 i) := by
        rw [hrow]; rfl
      have hhead : ((List.range (w2.length + 1)).map (cellD w1 w2 i)).headD 0
          = cellD w1 w2 i 0 := by
        rw [hrow]; rfl
      rw [htail, hhead]
      have h0 : cellD w1 w2 i 0 = i := cellD_zero_right _ _ _ (by omega)
      have h1 : (i + 1 : Nat) = cellD w1 w2 (i + 1) 0 :=
        (cellD_zero_right _ _ _ (by omega)).symm
      have hcells := levCells_spec w1 w2 i c1 hc1 w2.length 0 (by omega)
      rw [List.drop_zero] at hcells
      simp only [Nat.zero_add] at hcells
      rw [h0]
      nth_rewrite 2 [h1]
      nth_rewrite 1 [h1]
      rw [h0] at hcells
      rw [hcells]
      have hnewrow : cellD w1 w2 (i + 1) 0 :: (List.range' 1 w2.length).map (cellD w1 w2 (i + 1))
          = (List.range (w2.length + 1)).map (cellD w1 w2 (i + 1)) := by
        rw [List.range_eq_range', List.range'_succ, List.map_cons]
      rw [hnewrow]
      have hrest : w1.drop (i + 1) = rest := (List.cons.injEq _ _ _ _ ▸ hdrop).2
      exact ih (i + 1) hrest (by have := hlen; simp at this ⊢; omega)

/-- The source DP equals the reference recursion on the reversed
inputs: `matrix[len1][len2]` is the distance between the two full
(reversed) words. -/
theorem levenshtein_eq_levRec (w1 w2 : List Char) :
    levenshtein_distance w1 w2 = levRec w1.reverse w2.reverse := by
  unfold levenshtein_distance
  have h0 : (List.range (w2.length + 1)) = (List.range (w2.length + 1)).map (cellD w1 w2 0) := by
    have : ∀ j ∈ List.range (w2.length + 1), j = cellD w1 w2 0 j := by
      intro j hj
      exact (cellD_zero_left w1 w2 j (by simpa using Nat.lt_succ_iff.mp (List.mem_range.mp hj))).symm
    calc List.range (w2.length + 1) = (List.range (w2.length + 1)).map id := by
          rw [List.map_id]
      _ = (List.range (w2.length + 1)).map (cellD w1 w2 0) := List.map_congr_left this
  rw [h0, levLoop_spec w1 w2 w1 0 (by simp) (by simp)]
  rw [List.range_succ, List.map_append, List.map_cons, List.map_nil, List.getLastD_concat]
  simp [cellD, List.take_length]

/-! ## Edit scripts and minimality of the DP -/

/-- A positional alignment between two strings with its cost:
`Edits xs ys n` holds when `xs` rewrites to `ys` using `n` insertions,
deletions and substitutions applied left to right. -/
inductive Edits : List Char → List Char → Nat → Prop
  | nil : Edits [] [] 0
  | keep (c : Char) {xs ys : List Char} {n : Nat} :
      Edits xs ys n → Edits (c :: xs) (c :: ys) n
  | subst (c d : Char) {xs ys : List Char} {n : Nat} :
      Edits xs ys n → Edits (c :: xs) (d :: ys) (n + 1)
  | del (c : Char) {xs ys : List Char} {n : Nat} :
      Edits xs ys n → Edits (c :: xs) ys (n + 1)
  | ins (d : Char) {xs ys : List Char} {n : Nat} :
      Edits xs ys n → Edits xs (d :: ys) (n + 1)

theorem edits_refl : ∀ xs : List Char, Edits xs xs 0
  | [] => .nil
  | c :: xs => .keep c (edits_refl xs)

theorem edits_nil_right : ∀ xs : List Char, Edits xs [] xs.length
  | [] => .nil
  | c :: xs => .del c (edits_nil_right xs)

theorem edits_nil_left : ∀ ys : List Char, Edits [] ys ys.length
  | [] => .nil
  | d :: ys => .ins d (edits_nil_left ys)

/-- The DP recurrence achieves some alignment cost. -/
theorem edits_levRec : ∀ xs ys : List Char, Edits xs ys (levRec xs ys) := by
  intro xs ys
  induction xs, ys using levRec.induct with
  | case1 ys => rw [levRec_nil_left]; exact edits_nil_left ys
  | case2 x xs => rw [levRec_nil_right]; exact edits_nil_right (x :: xs)
  | case3 x xs y ys ih1 ih2 ih3 =>
      rw [levRec_cons_cons]
      rcases min_choice (levRec xs (y :: ys) + 1)
          (min (levRec (x :: xs) ys + 1) (levRec xs ys + (if x = y then 0 else 1))) with h | h
      · rw [h]; exact .del x ih1
      · rw [h]
        rcases min_choice (levRec (x :: xs) ys + 1)
            (levRec xs ys + (if x = y then 0 else 1)) with h2 | h2
        · rw [h2]; exact .ins y ih2
        · rw [h2]
          by_cases hxy : x = y
          · subst hxy
            simp only [if_pos rfl, Nat.add_zero]
            exact .keep x ih3
          · simp only [if_neg hxy]
            exact .subst x y ih3

theorem levRec_le_del (c : Char) (xs ys : List Char) :
    levRec (c :: xs) ys ≤ levRec xs ys + 1 := by
  cases ys with
  | nil => rw [levRec_nil_right, levRec_nil_right]; simp
  | cons y ys => rw [levRec_cons_cons]; exact Nat.min_le_left _ _

theorem levRec_le_ins (d : Char) (xs ys : List Char) :
    levRec xs (d :: ys) ≤ levRec xs ys + 1 := by
  cases xs with
  | nil => rw [levRec_nil_left, levRec_nil_left]; simp
  | cons x xs =>
      rw [levRec_cons_cons]
      exact le_trans (Nat.min_le_right _ _) (Nat.min_le_left _ _)

theorem levRec_le_diag (c d : Char) (xs ys : List Char) :
    levRec (c :: xs) (d :: ys) ≤ levRec xs ys + (if c = d then 0 else 1) := by
  rw [levRec_cons_cons]
  exact le_trans (Nat.min_le_right _ _) (Nat.min_le_right _ _)

/-- The DP recurrence is a lower bound on every alignment cost. -/
theorem levRec_le_of_edits {xs ys : List Char} {n : Nat} (h : Edits xs ys n) :
    levRec xs ys ≤ n := by
  induction h with
  | nil => simp [levRec_nil_left]
  | keep c _ ih =>
      refine le_trans (levRec_le_diag c c _ _) ?_
      simpa using ih
  | subst c d _ ih =>
      refine le_trans (levRec_le_diag c d _ _) ?_
      have hcost : (if c = d then 0 else 1) ≤ 1 := by split <;> omega
      omega
  | del c _ ih =>
      refine le_trans (levRec_le_del c _ _) ?_
      omega
  | ins d _ ih =>
      refine le_trans (levRec_le_ins d _ _) ?_
      omega

theorem edits_keep_snoc (c : Char) {xs ys : List Char} {n : Nat} (h : Edits xs ys n) :
    Edits (xs ++ [c]) (ys ++ [c]) n := by
  induction h with
  | nil => exact .keep c .nil
  | keep a _ ih => exact .keep a ih
  | subst a b _ ih => exact .subst a b ih
  | del a _ ih => exact .del a ih
  | ins b _ ih => exact .ins b ih

theorem edits_subst_snoc (c d : Char) {xs ys : List Char} {n : Nat} (h : Edits xs ys n) :
    Edits (xs ++ [c]) (ys ++ [d]) (n + 1) := by
  induction h with
  | nil => exact .subst c d .nil
  | keep a _ ih => exact .keep a ih
  | subst a b _ ih => exact .subst a b ih
  | del a _ ih => exact .del a ih
  | ins b _ ih => exact .ins b ih

theorem edits_del_snoc (c : Char) {xs ys : List Char} {n : Nat} (h : Edits xs ys n) :
    Edits (xs ++ [c]) ys (n + 1) := by
  induction h with
  | nil => exact .del c .nil
  | keep a _ ih => exact .keep a ih
  | subst a b _ ih => exact .subst a b ih
  | del a _ ih => exact .del a ih
  | ins b _ ih => exact .ins b ih

theorem edits_ins_snoc (d : Char) {xs ys : List Char} {n : Nat} (h : Edits xs ys n) :
    Edits xs (ys ++ [d]) (n + 1) := by
  induction h with
  | nil => exact .ins d .nil
  | keep a _ ih => exact .keep a ih
  | subst a b _ ih => exact .subst a b ih
  | del a _ ih => exact .del a ih
  | ins b _ ih => exact .ins b ih

theorem edits_reverse {xs ys : List Char} {n : Nat} (h : Edits xs ys n) :
    Edits xs.reverse ys.reverse n := by
  induction h with
  | nil => exact .nil
  | keep c _ ih => simpa [List.reverse_cons] using edits_keep_snoc c ih
  | subst c d _ ih => simpa [List.reverse_cons] using edits_subst_snoc c d ih
  | del c _ ih => simpa [List.reverse_cons] using edits_del_snoc c ih
  | ins d _ ih => simpa [List.reverse_cons] using edits_ins_snoc d ih

theorem edits_symm {xs ys : List Char} {n : Nat} (h : Edits xs ys n) : Edits ys xs n := by
  induction h with
  | nil => exact .nil
  | keep c _ ih => exact .keep c ih
  | subst c d _ ih => exact .subst d c ih
  | del c _ ih => exact .ins c ih
  | ins d _ ih => exact .del d ih

/-- Alignments compose with additive cost. -/
theorem edits_comp : ∀ (N : Nat) (a b c : List Char) (m k : Nat),
    a.length + b.length + c.length ≤ N →
    Edits a b m → Edits b c k → ∃ n, n ≤ m + k ∧ Edits a c n := by
  intro N
  induction N with
  | zero =>
      intro a b c m k hN h1 h2
      have ha : a = [] := by
        cases a <;> simp_all
      have hb : b = [] := by
        cases b <;> (subst ha; simp_all)
      have hc : c = [] := by
        cases c <;> (subst ha; subst hb; simp_all)
      subst ha; subst hb; subst hc
      cases h1
      cases h2
      exact ⟨0, le_rfl, .nil⟩
  | succ N ihN =>
      intro a b c m k hN h1 h2
      cases h2 with
      | nil => exact ⟨m, by omega, h1⟩
      | ins d h2a =>
          obtain ⟨n, hn, hac⟩ := ihN a b _ m _ (by simp at hN ⊢; omega) h1 h2a
          exact ⟨n + 1, by omega, .ins d hac⟩
      | keep y h2a =>
          cases h1 with
          | keep x h1a =>
              obtain ⟨n, hn, hac⟩ := ihN _ _ _ _ _ (by simp at hN ⊢; omega) h1a h2a
              exact ⟨n, by omega, .keep y hac⟩
          | subst x y h1a =>
              obtain ⟨n, hn, hac⟩ := ihN _ _ _ _ _ (by simp at hN ⊢; omega) h1a h2a
              exact ⟨n + 1, by omega, .subst x y hac⟩
          | del x h1a =>
              obtain ⟨n, hn, hac⟩ :=
                ihN _ _ _ _ _ (by simp at hN ⊢; omega) h1a (Edits.keep y h2a)
              exact ⟨n + 1, by omega, .del x hac⟩
          | ins y h1a =>
              obtain ⟨n, hn, hac⟩ := ihN _ _ _ _ _ (by simp at hN ⊢; omega) h1a h2a
              exact ⟨n + 1, by omega, .ins y hac⟩
      | subst y d h2a =>
          cases h1 with
          | keep x h1a =>
              obtain ⟨n, hn, hac⟩ := ihN _ _ _ _ _ (by simp at hN ⊢; omega) h1a h2a
              exact ⟨n + 1, by omega, .subst y d hac⟩
          | subst x y h1a =>
              obtain ⟨n, hn, hac⟩ := ihN _ _ _ _ _ (by simp at hN ⊢; omega) h1a h2a
              exact ⟨n + 1, by omega, .subst x d hac⟩
          | del x h1a =>
              obtain ⟨n, hn, hac⟩ :=
                ihN _ _ _ _ _ (by simp at hN ⊢; omega) h1a (Edits.subst y d h2a)
              exact ⟨n + 1, by omega, .del x hac⟩
          | ins y h1a =>
              obtain ⟨n, hn, hac⟩ := ihN _ _ _ _ _ (by simp at hN ⊢; omega) h1a h2a
              exact ⟨n + 1, by omega, .ins d hac⟩
      | del y h2a =>
          cases h1 with
          | keep x h1a =>
              obtain ⟨n, hn, hac⟩ := ihN _ _ _ _ _ (by simp at hN ⊢; omega) h1a h2a
              exact ⟨n + 1, by omega, .del y hac⟩
          | subst x y h1a =>
              obtain ⟨n, hn, hac⟩ := ihN _ _ _ _ _ (by simp at hN ⊢; omega) h1a h2a
              exact ⟨n + 1, by omega, .del x hac⟩
          | del x h1a =>
              obtain ⟨n, hn, hac⟩ :=
                ihN _ _ _ _ _ (by simp at hN ⊢; omega) h1a (Edits.del y h2a)
              exact ⟨n + 1, by omega, .del x hac⟩
          | ins y h1a =>
              obtain ⟨n, hn, hac⟩ := ihN _ _ _ _ _ (by simp at hN ⊢; omega) h1a h2a
              exact ⟨n, by omega, hac⟩

/-- One single-character edit somewhere in the string: an insertion,
a deletion, or a substitution at an arbitrary position. -/
inductive EditStep : List Char → List Char → Prop
  | ins (l r : List Char) (c : Char) : EditStep (l ++ r) (l ++ c :: r)
  | del (l r : List Char) (c : Char) : EditStep (l ++ c :: r) (l ++ r)
  | subst (l r : List Char) (c d : Char) : EditStep (l ++ c :: r) (l ++ d :: r)

/-- `EditChain n a b`: `b` is reachable from `a` by a sequence of `n`
single-character edits. -/
inductive EditChain : Nat → List Char → List Char → Prop
  | refl (xs : List Char) : EditChain 0 xs xs
  | step {n : Nat} {xs ys zs : List Char} :
      EditStep xs ys → EditChain n ys zs → EditChain (n + 1) xs zs

theorem edits_append_left (l : List Char) {xs ys : List Char} {n : Nat}
    (h : Edits xs ys n) : Edits (l ++ xs) (l ++ ys) n := by
  induction l with
  | nil => exact h
  | cons c l ih => exact .keep c ih

theorem edits_of_step {xs ys : List Char} (h : EditStep xs ys) : Edits xs ys 1 := by
  cases h with
  | ins l r c => exact edits_append_left l (.ins c (edits_refl r))
  | del l r c => exact edits_append_left l (.del c (edits_refl r))
  | subst l r c d => exact edits_append_left l (.subst c d (edits_refl r))

theorem editChain_snoc {n : Nat} {xs ys zs : List Char}
    (h : EditChain n xs ys) (hstep : EditStep ys zs) : EditChain (n + 1) xs zs := by
  induction h with
  | refl xs => exact .step hstep (.refl _)
  | step s _ ih => exact .step s (ih hstep)

theorem editStep_cons (c : Char) {xs ys : List Char} (h : EditStep xs ys) :
    EditStep (c :: xs) (c :: ys) := by
  cases h with
  | ins l r d => exact EditStep.ins (c :: l) r d
  | del l r d => exact EditStep.del (c :: l) r d
  | subst l r d e => exact EditStep.subst (c :: l) r d e

theorem editChain_cons (c : Char) {n : Nat} {xs ys : List Char}
    (h : EditChain n xs ys) : EditChain n (c :: xs) (c :: ys) := by
  induction h with
  | refl xs => exact .refl _
  | step s _ ih => exact .step (editStep_cons c s) ih

/-- Every alignment can be realised as a chain of single edits of the
same cost. -/
theorem editChain_of_edits {xs ys : List Char} {n : Nat} (h : Edits xs ys n) :
    EditChain n xs ys := by
  induction h with
  | nil => exact .refl _
  | keep c _ ih => exact editChain_cons c ih
  | subst c d _ ih => exact .step (EditStep.subst [] _ c d) (editChain_cons d ih)
  | del c _ ih => exact .step (EditStep.del [] _ c) ih
  | ins d _ ih => exact editChain_snoc ih (EditStep.ins [] _ d)

/-- Every chain of single edits is matched by an alignment of no
greater cost. -/
theorem edits_of_chain {n : Nat} {xs ys : List Char} (h : EditChain n xs ys) :
    ∃ m, m ≤ n ∧ Edits xs ys m := by
  induction h with
  | refl xs => exact ⟨0, Nat.zero_le _, edits_refl xs⟩
  | step s _ ih =>
      obtain ⟨m, hm, he⟩ := ih
      obtain ⟨p, hp, hc⟩ :=
        edits_comp _ _ _ _ 1 m le_rfl (edits_of_step s) he
      exact ⟨p, by omega, hc⟩

/-- C1: `levenshtein_distance(a, b)` is the minimum number of
single-character insertions, deletions and substitutions (unit cost
each) needed to transform `a` into `b`: it is the least `n` for which a
chain of `n` single-character edits rewrites `a` into `b`. -/
theorem levenshtein_distance_minimal (a b : List Char) :
    IsLeast {n | EditChain n a b} (levenshtein_distance a b) := by
  constructor
  · have h1 : Edits a.reverse b.reverse (levRec a.reverse b.reverse) :=
      edits_levRec _ _
    have h2 : Edits a b (levRec a.reverse b.reverse) := by
      simpa using edits_reverse h1
    rw [Set.mem_setOf_eq, levenshtein_eq_levRec]
    exact editChain_of_edits h2
  · intro n hn
    obtain ⟨m, hm, he⟩ := edits_of_chain hn
    have hle := levRec_le_of_edits (edits_reverse he)
    rw [levenshtein_eq_levRec]
    omega

/-- C9: the distance of a string to itself is 0, the distance is
symmetric, and the distance from the empty string to `s` is the length
of `s`. -/
theorem levenshtein_distance_algebra (x a b s : List Char) :
    levenshtein_distance x x = 0 ∧
    levenshtein_distance a b = levenshtein_distance b a ∧
    levenshtein_distance [] s = s.length := by
  refine ⟨?_, ?_, ?_⟩
  · rw [levenshtein_eq_levRec]
    exact Nat.le_zero.mp (levRec_le_of_edits (edits_refl _))
  · rw [levenshtein_eq_levRec, levenshtein_eq_levRec]
    exact Nat.le_antisymm
      (levRec_le_of_edits (edits_symm (edits_levRec _ _)))
      (levRec_le_of_edits (edits_symm (edits_levRec _ _)))
  · rw [levenshtein_eq_levRec]
    simp [levRec_nil_left]

/-! ## Candidate ranking (`generate_candidates`, lines 52-68) -/

/-- The comparison behind
`candidates.sort(key=lambda x: (x['distance'], -x['frequency']))`
(line 67): ascending lexicographic order on `(distance, -frequency)`,
that is, ascending distance with descending frequency as tie-break. -/
def rankLe (a b : Candidate) : Prop :=
  a.distance < b.distance ∨ (a.distance = b.distance ∧ b.frequency ≤ a.frequency)

instance (a b : Candidate) : Decidable (rankLe a b) := by
  unfold rankLe; infer_instance

theorem rankLe_total (a b : Candidate) : rankLe a b ∨ rankLe b a := by
  unfold rankLe; omega

theorem rankLe_trans (a b c : Candidate) :
    rankLe a b → rankLe b c → rankLe a c := by
  unfold rankLe; omega

theorem rankLe_of_key_eq (a b : Candidate)
    (h1 : a.distance = b.distance) (h2 : a.frequency = b.frequency) : rankLe a b := by
  unfold rankLe; omega

/-- Stable insertion into a sorted list: the new element goes before
the first element it compares `≤` to, hence after every earlier
element with an equal key. Python's `list.sort` is a stable ascending
sort by the key, which is exactly what repeated `ordInsert` builds. -/
def ordInsert (x : Candidate) : List Candidate → List Candidate
  | [] => [x]
  | y :: ys => if rankLe x y then x :: y :: ys else y :: ordInsert x ys

/-- Stable insertion sort: the model of `list.sort(key=...)` on line 67. -/
def ordSort : List Candidate → List Candidate
  | [] => []
  | x :: xs => ordInsert x (ordSort xs)

theorem ordInsert_perm (x : Candidate) (l : List Candidate) :
    (ordInsert x l).Perm (x :: l) := by
  induction l with
  | nil => exact List.Perm.refl _
  | cons y ys ih =>
      unfold ordInsert
      split
      · exact List.Perm.refl _
      · exact (ih.cons y).trans (List.Perm.swap x y ys)

theorem ordSort_perm (l : List Candidate) : (ordSort l).Perm l := by
  induction l with
  | nil => exact List.Perm.refl _
  | cons x xs ih => exact (ordInsert_perm x (ordSort xs)).trans (ih.cons x)

theorem ordInsert_pairwise (x : Candidate) (l : List Candidate)
    (h : l.Pairwise rankLe) : (ordInsert x l).Pairwise rankLe := by
  induction l with
  | nil => simp [ordInsert]
  | cons y ys ih =>
      rw [List.pairwise_cons] at h
      obtain ⟨hy, hys⟩ := h
      unfold ordInsert
      by_cases hxy : rankLe x y
      · rw [if_pos hxy]
        refine List.Pairwise.cons ?_ (List.Pairwise.cons hy hys)
        intro z hz
        rcases List.mem_cons.mp hz with rfl | hz2
        · exact hxy
        · exact rankLe_trans x y z hxy (hy z hz2)
      · rw [if_neg hxy]
        refine List.Pairwise.cons ?_ (ih hys)
        intro z hz
        rcases List.mem_cons.mp ((ordInsert_perm x ys).mem_iff.mp hz) with rfl | hz3
        · exact (rankLe_total _ _).resolve_left hxy
        · exact hy z hz3

theorem ordSort_pairwise (l : List Candidate) : (ordSort l).Pairwise rankLe := by
  induction l with
  | nil => exact List.Pairwise.nil
  | cons x xs ih => exact ordInsert_pairwise x (ordSort xs) ih

/-- Insertion keeps each exact-key class of the list unchanged: the
inserted element lands in front of no element of its own key class. -/
theorem ordInsert_filter (x : Candidate) (l : List Candidate) (K : Candidate → Bool)
    (hK : ∀ y, K x = true → K y = true → rankLe x y) :
    (ordInsert x l).filter K =
      if K x = true then x :: l.filter K else l.filter K := by
  induction l with
  | nil => simp [ordInsert, List.filter_cons]
  | cons y ys ih =>
      unfold ordInsert
      by_cases hxy : rankLe x y
      · rw [if_pos hxy]
        exact List.filter_cons
      · rw [if_neg hxy, List.filter_cons]
        by_cases hKy : K y = true
        · rw [if_pos hKy, ih]
          by_cases hKx : K x = true
          · exact absurd (hK y hKx hKy) hxy
          · rw [if_neg hKx, if_neg hKx, List.filter_cons, if_pos hKy]
        · rw [if_neg hKy, ih]
          by_cases hKx : K x = true
          · rw [if_pos hKx, if_pos hKx, List.filter_cons, if_neg hKy]
          · rw [if_neg hKx, if_neg hKx, List.filter_cons, if_neg hKy]

/-- Stability of the sort: each exact-key class comes out in its
original relative order. -/
theorem ordSort_filter (l : List Candidate) (K : Candidate → Bool)
    (hK : ∀ a b, K a = true → K b = true → rankLe a b) :
    (ordSort l).filter K = l.filter K := by
  induction l with
  | nil => rfl
  | cons x xs ih =>
      show (ordInsert x (ordSort xs)).filter K = _
      rw [ordInsert_filter x _ K (fun y => hK x y), ih, List.filter_cons]

/-- Line 60: `word_dict_df[word_dict_df['word'] == dict_word]['frequency'].iloc[0]` —
the frequency of the first dictionary row whose word equals `dictWord`.
Such a row always exists when `dictWord` is drawn from the dictionary
itself, so the fallback 0 is never read. -/
def firstFreq (es : List Entry) (dictWord : List Char) : Int :=
  ((es.filter (fun e => e.word == dictWord)).map Entry.frequency).headD 0

/-- Lines 54-66 of `generate_candidates`: scan the dictionary rows in
order, keeping every word whose distance `d` to the queried word (both
lowercased, line 58) satisfies `d ≤ max_distance and d > 0` (line 59),
carrying the frequency looked up on line 60. -/
def candidateScan (es : List Entry) (w : List Char) (maxDistance : Nat) : List Candidate :=
  es.filterMap (fun e =>
    let d := levenshtein_distance (lowerStr w) (lowerStr e.word)
    if d ≤ maxDistance ∧ 0 < d then some ⟨e.word, d, firstFreq es e.word⟩ else none)

/-- `generate_candidates(word, word_dict_df, max_distance)`
(lines 52-68): filter (lines 54-66), stable-sort by
`(distance, -frequency)` (line 67), return the first 5 (line 68). -/
def generate_candidates (es : List Entry) (w : List Char) (maxDistance : Nat) : List Candidate :=
  (ordSort (candidateScan es w maxDistance)).take 5

/-! ## The spell checker (`SimpleSpellChecker`, lines 70-95) -/

/-- The state `__init__` builds (lines 70-73): the dictionary DataFrame
and the set of lowercased words. The Python `set` is modelled as the
list of lowercased words; only membership in it is ever used. -/
structure SpellChecker where
  word_dict : List Entry
  vocab : List (List Char)
deriving DecidableEq, Repr

/-- Lines 71-73: store the DataFrame and build the lowercased
vocabulary. No validation of any kind is performed. -/
def mkSpellChecker (es : List Entry) : SpellChecker :=
  ⟨es, es.map (fun e => lowerStr e.word)⟩

/-- `is_word_in_dictionary` (lines 75-76): `word.lower() in self.vocab`. -/
def isWordInDictionary (s : SpellChecker) (w : List Char) : Bool :=
  decide (lowerStr w ∈ s.vocab)

/-- `check_spelling` (lines 78-95): clean, lowercase and split the text
(lines 81-82), then for each positioned token that is non-empty and not
in the vocabulary (line 86), rank candidates (line 87) and append a
report entry when at least one candidate exists (lines 88-93). -/
def check_spelling (s : SpellChecker) (text : List Char) : List ReportEntry :=
  (tokenizeText text).enum.filterMap (fun iw =>
    if iw.2 ≠ [] ∧ isWordInDictionary s iw.2 = false then
      let cs := generate_candidates s.word_dict iw.2 2
      if cs ≠ [] then some ⟨iw.1, iw.2, cs⟩ else none
    else none)

/-- The 24 sample rows of `load_sample_dictionary` (lines 17-26). -/
def sampleEntries : List Entry :=
  [⟨"patient".toList, 15000⟩, ⟨"patients".toList, 12000⟩, ⟨"treatment".toList, 8000⟩,
   ⟨"medical".toList, 7000⟩, ⟨"study".toList, 6500⟩, ⟨"disease".toList, 5000⟩,
   ⟨"cancer".toList, 4500⟩, ⟨"diabetes".toList, 4000⟩, ⟨"therapy".toList, 3500⟩,
   ⟨"clinical".toList, 3000⟩, ⟨"diagnosis".toList, 2800⟩, ⟨"symptoms".toList, 2500⟩,
   ⟨"hospital".toList, 2200⟩, ⟨"doctor".toList, 2000⟩, ⟨"medicine".toList, 1800⟩,
   ⟨"surgery".toList, 1600⟩, ⟨"infection".toList, 1400⟩, ⟨"health".toList, 1200⟩,
   ⟨"blood".toList, 1100⟩, ⟨"heart".toList, 1000⟩, ⟨"brain".toList, 900⟩,
   ⟨"liver".toList, 800⟩, ⟨"kidney".toList, 750⟩, ⟨"lung".toList, 700⟩]

/-! ## Dictionary search (sidebar, lines 114-119) -/

/-- A metacharacter of Python regular expressions.
`pandas.Series.str.contains` (line 115) interprets its pattern as a
regular expression, not as a literal substring. -/
def isRegexMeta (c : Char) : Bool :=
  c == '.' || c == '*' || c == '+' || c == '?' || c == '[' || c == ']' ||
  c == '(' || c == ')' || c == '\x7b' || c == '\x7d' || c == '^' || c == '$' ||
  c == '|' || c == '\\'

/-- Regex matching anchored at the start of the string, for the
fragment of Python regex patterns whose characters are literals or `.`
(which matches any character except a newline). This is the fragment
the program's search box exercises for the queries studied here. -/
def matchHere : List Char → List Char → Bool
  | [], _ => true
  | _ :: _, [] => false
  | p :: ps, c :: cs => (if p = '.' then c != '\n' else p == c) && matchHere ps cs

/-- `re.search` semantics: the pattern matches at some position of the
string. -/
def searchIn (pat : List Char) : List Char → Bool
  | [] => matchHere pat []
  | c :: cs => matchHere pat (c :: cs) || searchIn pat cs

/-- Lines 114-119:
`word_dict[word_dict['word'].str.contains(search_term.lower(), case=False)]`
followed by `.head(5)`: keep, in insertion order, the entries whose
lowercased word the lowercased query matches as a regular expression,
then truncate to 5; `case=False` is modelled by lowercasing both
sides. -/
def searchDictionary (es : List Entry) (query : List Char) : List Entry :=
  (es.filter (fun e => searchIn (lowerStr query) (lowerStr e.word))).take 5

/-- Literal-prefix test, from the claim's words (not from the source):
does `pat` occur at the start of `s`, character for character? -/
def litHere : List Char → List Char → Bool
  | [], _ => true
  | _ :: _, [] => false
  | p :: ps, c :: cs => p == c && litHere ps cs

/-- Literal-substring test, from the claim's words (not from the
source): does `pat` occur contiguously somewhere in `s`? -/
def litContains (pat : List Char) : List Char → Bool
  | [] => litHere pat []
  | c :: cs => litHere pat (c :: cs) || litContains pat cs

/-! ## Inversion lemmas for the pipeline -/

/-- What membership in the scan result says about a candidate. -/
theorem candidateScan_mem {es : List Entry} {w : List Char} {maxD : Nat} {c : Candidate}
    (hc : c ∈ candidateScan es w maxD) :
    ∃ e ∈ es, c.word = e.word ∧
      c.distance = levenshtein_distance (lowerStr w) (lowerStr e.word) ∧
      c.distance ≤ maxD ∧ 0 < c.distance ∧ c.frequency = firstFreq es e.word := by
  obtain ⟨e, he, heq⟩ := List.mem_filterMap.mp hc
  dsimp only at heq
  by_cases hd : levenshtein_distance (lowerStr w) (lowerStr e.word) ≤ maxD ∧
      0 < levenshtein_distance (lowerStr w) (lowerStr e.word)
  · rw [if_pos hd] at heq
    cases heq
    exact ⟨e, he, rfl, rfl, hd.1, hd.2, rfl⟩
  · rw [if_neg hd] at heq
    cases heq

/-- Membership in the final candidate list implies membership in the
scan, with all its properties. -/
theorem generate_candidates_mem {es : List Entry} {w : List Char} {maxD : Nat} {c : Candidate}
    (hc : c ∈ generate_candidates es w maxD) :
    ∃ e ∈ es, c.word = e.word ∧
      c.distance = levenshtein_distance (lowerStr w) (lowerStr e.word) ∧
      c.distance ≤ maxD ∧ 0 < c.distance ∧ c.frequency = firstFreq es e.word := by
  apply candidateScan_mem
  exact (ordSort_perm _).mem_iff.mp (List.take_subset _ _ hc)

/-- What membership in the spelling report says about an entry. -/
theorem check_spelling_mem {s : SpellChecker} {text : List Char} {r : ReportEntry}
    (hr : r ∈ check_spelling s text) :
    ∃ i w, (i, w) ∈ (tokenizeText text).enum ∧ w ≠ [] ∧
      isWordInDictionary s w = false ∧
      generate_candidates s.word_dict w 2 ≠ [] ∧
      r = ⟨i, w, generate_candidates s.word_dict w 2⟩ := by
  obtain ⟨iw, hmem, heq⟩ := List.mem_filterMap.mp hr
  dsimp only at heq
  by_cases hcond : iw.2 ≠ [] ∧ isWordInDictionary s iw.2 = false
  · rw [if_pos hcond] at heq
    by_cases hcs : generate_candidates s.word_dict iw.2 2 ≠ []
    · rw [if_pos hcs] at heq
      cases heq
      exact ⟨iw.1, iw.2, hmem, hcond.1, hcond.2, hcs, rfl⟩
    · rw [if_neg hcs] at heq
      cases heq
  · rw [if_neg hcond] at heq
    cases heq

/-- C2: `generate_candidates` returns only candidates whose distance
`d` to the (lowercased) queried word satisfies `0 < d ≤ maxDistance`,
at most 5 of them, and they are the first 5 of the list obtained by
stably sorting the kept candidates in ascending distance with
descending frequency as tie-break: a permutation of the kept list,
pairwise ordered by the ranking relation, with every exact-key class
still in its original dictionary order. -/
theorem generate_candidates_spec (es : List Entry) (w : List Char) (maxDistance : Nat) :
    (∀ c ∈ generate_candidates es w maxDistance,
        0 < c.distance ∧ c.distance ≤ maxDistance ∧
        c.distance = levenshtein_distance (lowerStr w) (lowerStr c.word)) ∧
    (generate_candidates es w maxDistance).length ≤ 5 ∧
    ∃ l : List Candidate, generate_candidates es w maxDistance = l.take 5 ∧
      l.Perm (candidateScan es w maxDistance) ∧
      l.Pairwise rankLe ∧
      ∀ d f, l.filter (fun c => c.distance == d && c.frequency == f)
        = (candidateScan es w maxDistance).filter
            (fun c => c.distance == d && c.frequency == f) := by
  refine ⟨?_, List.length_take_le _ _, ?_⟩
  · intro c hc
    obtain ⟨e, _, hw, hd, hle, hpos, _⟩ := generate_candidates_mem hc
    exact ⟨hpos, hle, by rw [hw]; exact hd⟩
  · refine ⟨ordSort (candidateScan es w maxDistance), rfl, ordSort_perm _,
      ordSort_pairwise _, ?_⟩
    intro d f
    apply ordSort_filter
    intro a b ha hb
    simp only [Bool.and_eq_true, beq_iff_eq] at ha hb
    exact rankLe_of_key_eq a b (ha.1.trans hb.1.symm) (ha.2.trans hb.2.symm)

/-- The per-occurrence shape of the scan: words and distances come one
for one from the dictionary rows that pass the filter. -/
theorem candidateScan_words (es : List Entry) (w : List Char) (maxD : Nat) :
    ∀ l : List Entry,
    (l.filterMap (fun e =>
        let d := levenshtein_distance (lowerStr w) (lowerStr e.word)
        if d ≤ maxD ∧ 0 < d then some (⟨e.word, d, firstFreq es e.word⟩ : Candidate)
        else none)).map (fun c => (c.word, c.distance))
    = (l.filter (fun e =>
          decide (levenshtein_distance (lowerStr w) (lowerStr e.word) ≤ maxD ∧
            0 < levenshtein_distance (lowerStr w) (lowerStr e.word)))).map
        (fun e => (e.word, levenshtein_distance (lowerStr w) (lowerStr e.word))) := by
  intro l
  induction l with
  | nil => rfl
  | cons a l ih =>
      rw [List.filterMap_cons, List.filter_cons]
      dsimp only
      by_cases hd : levenshtein_distance (lowerStr w) (lowerStr a.word) ≤ maxD ∧
          0 < levenshtein_distance (lowerStr w) (lowerStr a.word)
      · rw [if_pos hd, if_pos (by exact decide_eq_true hd)]
        rw [List.map_cons, List.map_cons, ih]
      · rw [if_neg hd, if_neg (by simpa using hd)]
        exact ih

/-- The first dictionary row bearing a word determines `firstFreq`. -/
theorem firstFreq_eq_find? (wd : List Char) :
    ∀ es : List Entry, (∃ e ∈ es, e.word = wd) →
    ∃ e0, es.find? (fun e => e.word == wd) = some e0 ∧ firstFreq es wd = e0.frequency := by
  intro es
  induction es with
  | nil => intro hex; obtain ⟨e, he, _⟩ := hex; cases he
  | cons a es ih =>
      intro hex
      by_cases ha : a.word = wd
      · refine ⟨a, ?_, ?_⟩
        · exact List.find?_cons_of_pos _ (by simpa using ha)
        · unfold firstFreq
          rw [List.filter_cons]
          simp [ha]
      · have hex2 : ∃ e ∈ es, e.word = wd := by
          obtain ⟨e, he, hw⟩ := hex
          rcases List.mem_cons.mp he with rfl | he2
          · exact absurd hw ha
          · exact ⟨e, he2, hw⟩
        obtain ⟨e0, hf, hd⟩ := ih hex2
        refine ⟨e0, ?_, ?_⟩
        · rw [List.find?_cons_of_neg _ (by simpa using ha)]
          exact hf
        · unfold firstFreq at hd ⊢
          rw [List.filter_cons]
          simpa [ha] using hd

/-- C10: with duplicate dictionary words, the scan emits one candidate
per occurrence that passes the distance filter (words and distances
come one for one from the passing rows, in order), and every candidate
carries the frequency of the first dictionary row bearing its word,
not the frequency of its own occurrence. -/
theorem generate_candidates_duplicates (es : List Entry) (w : List Char) (maxDistance : Nat) :
    ((candidateScan es w maxDistance).map (fun c => (c.word, c.distance))
      = (es.filter (fun e =>
            decide (levenshtein_distance (lowerStr w) (lowerStr e.word) ≤ maxDistance ∧
              0 < levenshtein_distance (lowerStr w) (lowerStr e.word)))).map
          (fun e => (e.word, levenshtein_distance (lowerStr w) (lowerStr e.word)))) ∧
    ∀ c ∈ candidateScan es w maxDistance,
      ∃ e0, es.find? (fun e => e.word == c.word) = some e0 ∧ c.frequency = e0.frequency := by
  constructor
  · exact candidateScan_words es w maxDistance es
  · intro c hc
    obtain ⟨e, he, hw, _, _, _, hf⟩ := candidateScan_mem hc
    obtain ⟨e0, hfind, hfreq⟩ := firstFreq_eq_find? c.word es ⟨e, he, hw.symm⟩
    refine ⟨e0, hfind, ?_⟩
    rw [hf, ← hw]
    exact hfreq

/-- C3: a token present (case-insensitively) in the dictionary is
never reported: the word of every report entry differs, after
lowercasing, from the lowercased word of every dictionary entry. -/
theorem check_spelling_no_vocab (es : List Entry) (text : List Char) (e : Entry)
    (he : e ∈ es) (r : ReportEntry) (hr : r ∈ check_spelling (mkSpellChecker es) text) :
    lowerStr r.word ≠ lowerStr e.word := by
  intro hcontra
  obtain ⟨i, w, _, _, hvocab, _, rfl⟩ := check_spelling_mem hr
  unfold isWordInDictionary mkSpellChecker at hvocab
  simp only [decide_eq_false_iff_not] at hvocab
  apply hvocab
  dsimp only at hcontra ⊢
  rw [hcontra]
  exact List.mem_map.mpr ⟨e, he, rfl⟩

/-- Witness for C3: with the sample dictionary and the text `pateint`,
its report entry is present and its word differs (lowercased) from the
dictionary word `patient`. -/
theorem check_spelling_no_vocab_witness :
    lowerStr (⟨0, "pateint".toList, [⟨"patient".toList, 2, 15000⟩]⟩ : ReportEntry).word
      ≠ lowerStr (⟨"patient".toList, 15000⟩ : Entry).word :=
  check_spelling_no_vocab sampleEntries "pateint".toList ⟨"patient".toList, 15000⟩
    (by decide) ⟨0, "pateint".toList, [⟨"patient".toList, 2, 15000⟩]⟩ (by decide)

/-- With an empty dictionary every token lacks candidates, so the
report is empty on every text (no error is ever raised). -/
theorem check_spelling_empty_dict (text : List Char) :
    check_spelling (mkSpellChecker []) text = [] := by
  unfold check_spelling
  apply List.filterMap_eq_nil_iff.mpr
  intro iw _
  dsimp only
  by_cases hcond : iw.2 ≠ [] ∧ isWordInDictionary (mkSpellChecker []) iw.2 = false
  · rw [if_pos hcond, if_neg]
    simp only [ne_eq, not_not]
    rfl
  · rw [if_neg hcond]

/-- Counterexample to C4: `SimpleSpellChecker.__init__` performs no
validation at all, so construction applied to the empty entry list —
and to a malformed entry with an empty word and a negative frequency —
succeeds and produces a checker object instead of failing with an
`InvalidDictionary` error. -/
theorem mkSpellChecker_no_validation_cex :
    mkSpellChecker [] = ⟨[], []⟩ ∧
    mkSpellChecker [⟨[], -1⟩] = ⟨[⟨[], -1⟩], [[]]⟩ :=
  ⟨rfl, rfl⟩

/-- C4 amended: construction never fails — for every entry list,
including the empty list and lists with malformed entries, it returns
the checker holding that list and its lowercased vocabulary; with the
empty dictionary the checker still works, reporting nothing on every
text. -/
theorem mkSpellChecker_total (es : List Entry) (text : List Char) :
    mkSpellChecker es = ⟨es, es.map (fun e => lowerStr e.word)⟩ ∧
    check_spelling (mkSpellChecker []) text = [] :=
  ⟨rfl, check_spelling_empty_dict text⟩

/-- C7: `check_spelling` is a total function of its text (the
embedding is total over all strings), the empty text yields the empty
report, and on every text each report entry is well-formed: a
non-empty list of at most five suggestions, each at distance between 1
and 2. -/
theorem check_spelling_total_wf (es : List Entry) (text : List Char) :
    check_spelling (mkSpellChecker es) [] = [] ∧
    ∀ r ∈ check_spelling (mkSpellChecker es) text,
      r.suggestions ≠ [] ∧ r.suggestions.length ≤ 5 ∧
      ∀ c ∈ r.suggestions, 0 < c.distance ∧ c.distance ≤ 2 := by
  refine ⟨rfl, ?_⟩
  intro r hr
  obtain ⟨i, w, _, _, _, hcs, rfl⟩ := check_spelling_mem hr
  refine ⟨hcs, List.length_take_le _ _, ?_⟩
  intro c hc
  obtain ⟨e, _, _, _, hle, hpos, _⟩ := generate_candidates_mem hc
  exact ⟨hpos, hle⟩

/-! ## Character facts (ASCII fragment of `str.lower` and `\w`) -/

theorem uint32_le_iff {a b : UInt32} : a ≤ b ↔ a.toNat ≤ b.toNat := by
  simp [UInt32.le_def, BitVec.le_def, UInt32.toNat]

theorem isDigit_toNat {c : Char} : c.isDigit = true ↔ 48 ≤ c.toNat ∧ c.toNat ≤ 57 := by
  unfold Char.isDigit
  rw [Bool.and_eq_true, decide_eq_true_eq, decide_eq_true_eq, ge_iff_le,
    uint32_le_iff, uint32_le_iff]
  exact Iff.rfl

theorem isUpper_toNat {c : Char} : c.isUpper = true ↔ 65 ≤ c.toNat ∧ c.toNat ≤ 90 := by
  unfold Char.isUpper
  rw [Bool.and_eq_true, decide_eq_true_eq, decide_eq_true_eq, ge_iff_le,
    uint32_le_iff, uint32_le_iff]
  exact Iff.rfl

theorem isLower_toNat {c : Char} : c.isLower = true ↔ 97 ≤ c.toNat ∧ c.toNat ≤ 122 := by
  unfold Char.isLower
  rw [Bool.and_eq_true, decide_eq_true_eq, decide_eq_true_eq, ge_iff_le,
    uint32_le_iff, uint32_le_iff]
  exact Iff.rfl

theorem isAlphanum_toNat {c : Char} : c.isAlphanum = true ↔
    (48 ≤ c.toNat ∧ c.toNat ≤ 57) ∨ (65 ≤ c.toNat ∧ c.toNat ≤ 90) ∨
    (97 ≤ c.toNat ∧ c.toNat ≤ 122) := by
  unfold Char.isAlphanum Char.isAlpha
  rw [Bool.or_eq_true, Bool.or_eq_true, isDigit_toNat, isUpper_toNat, isLower_toNat]
  tauto

theorem toLower_of_upper {c : Char} (h : 65 ≤ c.toNat ∧ c.toNat ≤ 90) :
    (Char.toLower c).toNat = c.toNat + 32 := by
  unfold Char.toLower
  rw [if_pos ⟨h.1, h.2⟩]
  have hvalid : (c.toNat + 32).isValidChar := Or.inl (by omega)
  rw [Char.ofNat, dif_pos hvalid]
  rfl

theorem toLower_eq_self {c : Char} (h : ¬(65 ≤ c.toNat ∧ c.toNat ≤ 90)) :
    Char.toLower c = c := by
  unfold Char.toLower
  exact if_neg h

theorem underscore_toNat : ('_' : Char).toNat = 95 := rfl

/-- Lowercasing a word character yields a word character: digits,
lowercase letters and the underscore are unchanged, uppercase letters
map into the lowercase range. -/
theorem toLower_wordChar {c : Char} (h : isWordChar c = true) :
    (Char.toLower c).isAlphanum = true ∨ Char.toLower c = '_' := by
  unfold isWordChar at h
  rw [Bool.or_eq_true, beq_iff_eq] at h
  rcases h with h | rfl
  · rw [isAlphanum_toNat] at h
    rcases h with h | h | h
    · left
      rw [toLower_eq_self (by omega), isAlphanum_toNat]
      omega
    · left
      rw [isAlphanum_toNat, toLower_of_upper h]
      omega
    · left
      rw [toLower_eq_self (by omega), isAlphanum_toNat]
      omega
  · right
    rw [toLower_eq_self (by rw [underscore_toNat]; omega)]

theorem isWhitespace_cases {c : Char} (h : c.isWhitespace = true) :
    c = ' ' ∨ c = '\t' ∨ c = '\r' ∨ c = '\n' := by
  unfold Char.isWhitespace at h
  simp only [Bool.or_eq_true, decide_eq_true_eq] at h
  tauto

/-- Every character of every token produced by `splitWsAux` comes from
the accumulator or is a non-whitespace character of the input. -/
theorem splitWsAux_chars (P : Char → Prop) :
    ∀ (cs acc : List Char), (∀ c ∈ acc, P c) →
      (∀ c ∈ cs, c.isWhitespace = false → P c) →
      ∀ t ∈ splitWsAux cs acc, ∀ c ∈ t, P c := by
  intro cs
  induction cs with
  | nil =>
      intro acc hacc _ t ht c hc
      unfold splitWsAux at ht
      by_cases h : acc = []
      · rw [if_pos h] at ht
        cases ht
      · rw [if_neg h] at ht
        rw [List.mem_singleton] at ht
        subst ht
        exact hacc c (List.mem_reverse.mp hc)
  | cons a cs ih =>
      intro acc hacc hcs t ht c hc
      unfold splitWsAux at ht
      by_cases hws : a.isWhitespace = true
      · rw [if_pos hws] at ht
        by_cases h : acc = []
        · rw [if_pos h] at ht
          exact ih [] (by simp)
            (fun c hcmem hnws => hcs c (List.mem_cons_of_mem a hcmem) hnws) t ht c hc
        · rw [if_neg h] at ht
          rcases List.mem_cons.mp ht with rfl | ht2
          · exact hacc c (List.mem_reverse.mp hc)
          · exact ih [] (by simp)
              (fun c hcmem hnws => hcs c (List.mem_cons_of_mem a hcmem) hnws) t ht2 c hc
      · rw [if_neg hws] at ht
        refine ih (a :: acc) ?_
          (fun c hcmem hnws => hcs c (List.mem_cons_of_mem a hcmem) hnws) t ht c hc
        intro c hcmem
        rcases List.mem_cons.mp hcmem with rfl | h2
        · exact hcs c (List.mem_cons_self _ _) (by simpa using hws)
        · exact hacc c h2

/-- C5 amended: every character that is neither a word character
(alphanumeric or underscore) nor whitespace is replaced by a space
before lowercasing and splitting; consequently every token consists
only of word characters, that is, alphanumeric characters or
underscores. (With "alphanumeric" alone the claim fails: `\w` keeps
underscores; see the counterexample.) -/
theorem tokenize_word_chars (text t : List Char) (c : Char)
    (ht : t ∈ tokenizeText text) (hc : c ∈ t) :
    c.isAlphanum = true ∨ c = '_' := by
  refine splitWsAux_chars (fun c => c.isAlphanum = true ∨ c = '_')
      (lowerStr (cleanText text)) [] (by simp) ?_ t ht c hc
  intro d hd hnws
  obtain ⟨c0, hc0, rfl⟩ := List.mem_map.mp hd
  obtain ⟨c1, _, rfl⟩ := List.mem_map.mp hc0
  by_cases hw : isWordChar c1 = true
  · have hcond : (isWordChar c1 || c1.isWhitespace) = true := by rw [hw]; rfl
    rw [if_pos hcond]
    rw [if_pos hcond] at hnws
    exact toLower_wordChar hw
  · by_cases hws1 : c1.isWhitespace = true
    · have hcond : (isWordChar c1 || c1.isWhitespace) = true := by
        rw [hws1, Bool.or_true]
      rw [if_pos hcond] at hnws
      rcases isWhitespace_cases hws1 with rfl | rfl | rfl | rfl <;> simp_all
    · have hcond : (isWordChar c1 || c1.isWhitespace) = false := by
        rw [Bool.or_eq_false_iff]
        exact ⟨by simpa using hw, by simpa using hws1⟩
      rw [if_neg (by rw [hcond]; simp)] at hnws
      simp at hnws

/-- Counterexample to C5: the cleaning regex keeps `\w = [A-Za-z0-9_]`,
so the underscore of `a_b` — a character that is neither alphanumeric
nor whitespace — is not replaced by a space, and the produced token
`a_b` contains a non-alphanumeric character. -/
theorem tokenize_underscore_cex :
    tokenizeText "a_b".toList = ["a_b".toList] ∧
    '_' ∈ "a_b".toList ∧ '_'.isAlphanum = false ∧ '_'.isWhitespace = false :=
  ⟨by decide, by decide, by decide, by decide⟩

/-- Witness for the amended C5 at the concrete text `a_b`: the token
`a_b` is produced and its middle character, the underscore, is a word
character (here by its right disjunct). -/
theorem tokenize_word_chars_witness :
    '_'.isAlphanum = true ∨ '_' = '_' :=
  tokenize_word_chars "a_b".toList "a_b".toList '_' (by decide) (by decide)

/-! ## Search: regex fragment vs literal substring -/

/-- `litHere` means: the string starts with the pattern. -/
theorem litHere_iff (pat : List Char) :
    ∀ s, litHere pat s = true ↔ ∃ r, s = pat ++ r := by
  induction pat with
  | nil =>
      intro s
      simp [litHere]
  | cons p ps ih =>
      intro s
      cases s with
      | nil =>
          simp [litHere]
      | cons c cs =>
          show (p == c && litHere ps cs) = true ↔ _
          rw [Bool.and_eq_true, beq_iff_eq, ih]
          constructor
          · rintro ⟨rfl, r, rfl⟩
            exact ⟨r, rfl⟩
          · rintro ⟨r, hr⟩
            rw [List.cons_append] at hr
            injection hr with h1 h2
            exact ⟨h1.symm, r, h2⟩

/-- `litContains` means: the pattern occurs contiguously in the string. -/
theorem litContains_iff (pat : List Char) :
    ∀ s, litContains pat s = true ↔ ∃ l r, s = l ++ pat ++ r := by
  intro s
  induction s with
  | nil =>
      show litHere pat [] = true ↔ _
      rw [litHere_iff]
      constructor
      · rintro ⟨r, hr⟩
        exact ⟨[], r, by simpa using hr⟩
      · rintro ⟨l, r, hr⟩
        cases l with
        | nil => exact ⟨r, by simpa using hr⟩
        | cons a l => simp at hr
  | cons c cs ih =>
      show (litHere pat (c :: cs) || litContains pat cs) = true ↔ _
      rw [Bool.or_eq_true, litHere_iff, ih]
      constructor
      · rintro (⟨r, hr⟩ | ⟨l, r, hr⟩)
        · exact ⟨[], r, by simpa using hr⟩
        · exact ⟨c :: l, r, by simp [hr]⟩
      · rintro ⟨l, r, hr⟩
        cases l with
        | nil => exact Or.inl ⟨r, by simpa using hr⟩
        | cons a l =>
            rw [List.cons_append, List.cons_append] at hr
            injection hr with h1 h2
            exact Or.inr ⟨l, r, by simp [h2]⟩

/-- On dot-free patterns the regex fragment degenerates to the literal
prefix test. -/
theorem matchHere_eq_litHere (pat : List Char) (hpat : ∀ p ∈ pat, p ≠ '.') :
    ∀ s, matchHere pat s = litHere pat s := by
  induction pat with
  | nil => intro s; rfl
  | cons p ps ih =>
      intro s
      cases s with
      | nil => rfl
      | cons c cs =>
          show ((if p = '.' then c != '\n' else p == c) && matchHere ps cs) = _
          rw [if_neg (hpat p (List.mem_cons_self _ _)),
            ih (fun q hq => hpat q (List.mem_cons_of_mem _ hq)) cs]
          rfl

/-- On dot-free patterns the regex search degenerates to the literal
substring test. -/
theorem searchIn_eq_litContains (pat : List Char) (hpat : ∀ p ∈ pat, p ≠ '.') :
    ∀ s, searchIn pat s = litContains pat s := by
  intro s
  induction s with
  | nil =>
      show matchHere pat [] = litHere pat []
      exact matchHere_eq_litHere pat hpat []
  | cons c cs ih =>
      show (matchHere pat (c :: cs) || searchIn pat cs) = _
      rw [matchHere_eq_litHere pat hpat, ih]
      rfl

/-- Lowercasing never produces a dot: uppercase letters land in the
lowercase range, every other character is unchanged. -/
theorem toLower_ne_dot {c : Char} (h : c ≠ '.') : Char.toLower c ≠ '.' := by
  by_cases hu : 65 ≤ c.toNat ∧ c.toNat ≤ 90
  · intro hcontra
    have h2 := toLower_of_upper hu
    rw [hcontra] at h2
    have hd : ('.' : Char).toNat = 46 := rfl
    rw [hd] at h2
    omega
  · rw [toLower_eq_self hu]
    exact h

/-- C6 amended: the search box feeds the query to pandas
`str.contains`, which reads it as a regular expression; only for
queries free of regex metacharacters does the search return exactly
the entries whose lowercased word contains the lowercased query as a
literal substring, in original insertion order, truncated to the first
5 results. -/
theorem searchDictionary_literal (es : List Entry) (query : List Char)
    (hq : ∀ c ∈ query, isRegexMeta c = false) :
    searchDictionary es query
      = (es.filter (fun e => litContains (lowerStr query) (lowerStr e.word))).take 5 := by
  unfold searchDictionary
  congr 1
  apply List.filter_congr
  intro e _
  apply searchIn_eq_litContains
  intro p hp
  obtain ⟨c, hc, rfl⟩ := List.mem_map.mp hp
  have hmeta := hq c hc
  have hcdot : c ≠ '.' := by
    intro hcontra
    rw [hcontra] at hmeta
    simp [isRegexMeta] at hmeta
  exact toLower_ne_dot hcdot

/-- Witness for the amended C6 at the spec's own scenario: the
metacharacter-free query `clin` finds exactly the entry `clinical`
both as a regex search and as a literal substring search. -/
theorem searchDictionary_literal_witness :
    searchDictionary sampleEntries "clin".toList
      = (sampleEntries.filter
          (fun e => litContains (lowerStr "clin".toList) (lowerStr e.word))).take 5 :=
  searchDictionary_literal sampleEntries "clin".toList (by decide)

/-- Counterexample to C6: for the query `.` the search returns the
first five dictionary entries — pandas reads the query as a regular
expression in which `.` matches any character — although `.` occurs
literally in no dictionary word, so the literal-substring reading
returns nothing. -/
theorem searchDictionary_regex_cex :
    searchDictionary sampleEntries ".".toList
        = [⟨"patient".toList, 15000⟩, ⟨"patients".toList, 12000⟩,
           ⟨"treatment".toList, 8000⟩, ⟨"medical".toList, 7000⟩,
           ⟨"study".toList, 6500⟩] ∧
    (sampleEntries.filter
        (fun e => litContains (lowerStr ".".toList) (lowerStr e.word))).take 5 = [] :=
  ⟨by decide, by decide⟩

/-- Counterexample to C8: in the sample scenario the report entry for
`pateint` does not carry `patient` at distance 1 — `pateint` and
`patient` differ by a transposition of `ei`, which costs two
single-character edits, so the distance is 2. -/
theorem check_sample_cex :
    levenshtein_distance "pateint".toList "patient".toList ≠ 1 ∧
    ¬ ∃ r ∈ check_spelling (mkSpellChecker sampleEntries) "The pateint has diabetis".toList,
        r.word = "pateint".toList ∧
        (r.suggestions.map (fun c => (c.word, c.distance))).head?
          = some ("patient".toList, 1) :=
  ⟨by decide, by decide⟩

/-- C8 amended: with the sample dictionary, maxDistance 2 and topK 5,
checking `The pateint has diabetis` flags exactly two tokens:
`pateint` at position 1, whose only suggestion is `patient` at
distance 2, and `diabetis` at position 3, whose only suggestion is
`diabetes` at distance 1; `the` and `has` are silently omitted. -/
theorem check_sample_scenario :
    check_spelling (mkSpellChecker sampleEntries) "The pateint has diabetis".toList
      = [⟨1, "pateint".toList, [⟨"patient".toList, 2, 15000⟩]⟩,
         ⟨3, "diabetis".toList, [⟨"diabetes".toList, 1, 4000⟩]⟩] := by
  decide
